import Mathlib

/-!
Verification of the parallel puzzle generator/solver (`src/main.rs`).

The development shallowly embeds the program:

* `Puzzle` mirrors the `Puzzle` struct (difficulty, data bytes, nonce field).
* `validate` mirrors `fn validate`; the SHA-256 digest supplied by the external
  `sha2` crate is abstracted as a function parameter `sha : List Nat → List Nat`
  mapping the hashed byte stream to the digest bytes (the crate is not part of
  this repository, and every theorem below holds for an arbitrary digest).
* The partition arithmetic of `parallel_mine` (chunk sizes, per-worker ranges,
  the derived `max_nonce` bound) is embedded as pure functions on `Nat`.
* Division by a runtime value in Rust panics on zero; `checkedDiv`/`mineSetup`
  model that with `Except`.
* The concurrent phase of `parallel_mine` (worker loops, the relaxed atomic
  `found_flag`, the mutex-guarded `solution` slot) is embedded as a labelled
  interleaving transition system `Step` on `MState`, with runs `Exec` and
  reachability `Reach`.
-/

/-- `u64::MAX` as a natural number. -/
def U64MAX : Nat := 2 ^ 64 - 1

/-- The `Puzzle` struct: difficulty threshold, data bytes, and the (unused)
stored nonce field. -/
structure Puzzle where
  difficulty : Nat
  data : List Nat
  nonce : Nat
deriving DecidableEq

/-- `u64::to_be_bytes`: the eight big-endian bytes of a 64-bit value. -/
def u64ToBeBytes (n : Nat) : List Nat :=
  let m := n % 2 ^ 64
  [m / 2 ^ 56 % 256, m / 2 ^ 48 % 256, m / 2 ^ 40 % 256, m / 2 ^ 32 % 256,
   m / 2 ^ 24 % 256, m / 2 ^ 16 % 256, m / 2 ^ 8 % 256, m % 256]

/-- `u16::from_be_bytes([b0, b1])`. -/
def u16FromBeBytes (b0 b1 : Nat) : Nat := b0 % 256 * 256 + b1 % 256

/-- `fn validate(puzzle, nonce)`: hash the data bytes followed by the
big-endian nonce bytes, take the first two digest bytes as a big-endian `u16`,
and compare with `puzzle.difficulty as u16` (truncation modulo `2^16`). -/
def validate (sha : List Nat → List Nat) (puzzle : Puzzle) (nonce : Nat) : Bool :=
  let result := sha (puzzle.data ++ u64ToBeBytes nonce)
  let result_val := u16FromBeBytes (result.getD 0 0) (result.getD 1 0)
  decide (result_val < puzzle.difficulty % 2 ^ 16)

/-! ### Range partitioning (`parallel_mine`, lines 101–122) -/

/-- `range_per_thread`-style chunk: `N / W`, truncating. -/
def chunkSize (N W : Nat) : Nat := N / W

/-- Start of worker `i`'s range: `i * chunk`. -/
def pstart (N W i : Nat) : Nat := i * chunkSize N W

/-- End (exclusive) of worker `i`'s range: the last worker absorbs the
remainder up to `N`; the others end at `(i+1) * chunk`. -/
def pend (N W i : Nat) : Nat :=
  if i = W - 1 then N else (i + 1) * chunkSize N W

/-- The list of the `W` half-open ranges handed to the workers. -/
def partitionRanges (N W : Nat) : List (Nat × Nat) :=
  (List.range W).map fun i => (pstart N W i, pend N W i)

/-- `max_nonce = u64::MAX / num_cores`. -/
def maxNonce (W : Nat) : Nat := U64MAX / W

/-- `range_per_thread = max_nonce / num_cores`. -/
def rangePerThread (W : Nat) : Nat := maxNonce W / W

/-- `start = i as u64 * range_per_thread`. -/
def wstart (W i : Nat) : Nat := i * rangePerThread W

/-- `end = if i == num_cores - 1 { max_nonce } else { (i+1) * range_per_thread }`. -/
def wend (W i : Nat) : Nat :=
  if i = W - 1 then maxNonce W else (i + 1) * rangePerThread W

/-! ### Fallible setup (`max_nonce` / `range_per_thread` divisions)

Rust's `/` on integers panics when the divisor is zero; `checkedDiv` models
that panic as an `Except.error`. -/

/-- The ways `parallel_mine`'s setup can fail. `divByZero` is the Rust
divide-by-zero panic; `invalidConfig` is an explicit rejection of the
configuration (present in the error type so the spec's claimed behaviour can
be stated, but never produced by the code, which has no such check). -/
inductive MineFailure where
  | divByZero
  | invalidConfig
deriving DecidableEq

/-- Rust integer division: panics (errors) when the divisor is zero. -/
def checkedDiv (a b : Nat) : Except MineFailure Nat :=
  if b = 0 then .error .divByZero else .ok (a / b)

/-- The two divisions at the top of `parallel_mine`:
`max_nonce = u64::MAX / num_cores` and `range_per_thread = max_nonce / num_cores`. -/
def mineSetup (W : Nat) : Except MineFailure (Nat × Nat) :=
  match checkedDiv U64MAX W with
  | .error e => .error e
  | .ok maxN =>
    match checkedDiv maxN W with
    | .error e => .error e
    | .ok rpt => .ok (maxN, rpt)

/-- The worker ranges that `parallel_mine` spawns threads for; computed only
after the setup divisions succeed, so a setup panic means no worker is ever
started. -/
def mineWorkerRanges (W : Nat) : Except MineFailure (List (Nat × Nat)) :=
  match mineSetup W with
  | .error e => .error e
  | .ok (maxN, rpt) =>
    .ok ((List.range W).map fun i =>
      (i * rpt, if i = W - 1 then maxN else (i + 1) * rpt))

/-! ### Partition lemmas -/

theorem chunkSize_pos {N W : Nat} (hW : 0 < W) (h : W ≤ N) :
    0 < chunkSize N W := by
  unfold chunkSize
  exact Nat.div_pos h hW

theorem mul_chunkSize_le (N W : Nat) : W * chunkSize N W ≤ N := by
  unfold chunkSize
  calc W * (N / W) = N / W * W := Nat.mul_comm _ _
    _ ≤ N := Nat.div_mul_le_self N W

theorem pend_le (N W : Nat) {i : Nat} (hi : i < W) : pend N W i ≤ N := by
  unfold pend
  split
  · exact Nat.le_refl N
  · calc (i + 1) * chunkSize N W ≤ W * chunkSize N W :=
        Nat.mul_le_mul_right _ hi
      _ ≤ N := mul_chunkSize_le N W

theorem partition_mem_lt (N W : Nat) {i n : Nat} (hi : i < W)
    (h : n < pend N W i) : n < N :=
  Nat.lt_of_lt_of_le h (pend_le N W hi)

theorem partition_cover (N W : Nat) (hW : 0 < W) {n : Nat} (hn : n < N) :
    ∃ i, i < W ∧ pstart N W i ≤ n ∧ n < pend N W i := by
  by_cases hlt : n < (W - 1) * chunkSize N W
  · have hcpos : 0 < chunkSize N W := by
      rcases Nat.eq_zero_or_pos (chunkSize N W) with h0 | h0
      · rw [h0, Nat.mul_zero] at hlt; omega
      · exact h0
    have hdiv : n / chunkSize N W < W - 1 :=
      (Nat.div_lt_iff_lt_mul hcpos).mpr hlt
    refine ⟨n / chunkSize N W, by omega, ?_, ?_⟩
    · unfold pstart
      exact Nat.div_mul_le_self n _
    · have hne : n / chunkSize N W ≠ W - 1 := by omega
      unfold pend
      rw [if_neg hne]
      have h1 := Nat.div_add_mod n (chunkSize N W)
      have h2 := Nat.mod_lt n hcpos
      have h3 : (n / chunkSize N W + 1) * chunkSize N W
          = chunkSize N W * (n / chunkSize N W) + chunkSize N W := by ring
      omega
  · refine ⟨W - 1, by omega, ?_, ?_⟩
    · unfold pstart
      omega
    · unfold pend
      rw [if_pos rfl]
      exact hn

theorem partition_disjoint_lt (N W : Nat) {i j n : Nat} (hij : i < j)
    (hj : j < W) (h2 : n < pend N W i) (h3 : pstart N W j ≤ n) : False := by
  have hiW : i ≠ W - 1 := by omega
  unfold pend at h2
  rw [if_neg hiW] at h2
  unfold pstart at h3
  have : (i + 1) * chunkSize N W ≤ j * chunkSize N W :=
    Nat.mul_le_mul_right _ (by omega)
  omega

theorem partition_nonempty (N W : Nat) (hW : 0 < W) (hNW : W ≤ N) {i : Nat}
    (hi : i < W) : pstart N W i < pend N W i := by
  have hc := chunkSize_pos hW hNW
  by_cases hlast : i = W - 1
  · unfold pstart pend
    rw [if_pos hlast, hlast]
    have h1 := mul_chunkSize_le N W
    have h2 : (W - 1) * chunkSize N W + chunkSize N W = W * chunkSize N W := by
      have hW1 : W - 1 + 1 = W := Nat.succ_pred_eq_of_pos hW
      calc (W - 1) * chunkSize N W + chunkSize N W
          = (W - 1 + 1) * chunkSize N W := by ring
        _ = W * chunkSize N W := by rw [hW1]
    omega
  · unfold pstart pend
    rw [if_neg hlast]
    have : i * chunkSize N W + chunkSize N W = (i + 1) * chunkSize N W := by
      ring
    omega

theorem partitionRanges_get (N W i : Nat) (hi : i < W) :
    (partitionRanges N W)[i]? = some (pstart N W i, pend N W i) := by
  unfold partitionRanges
  rw [List.getElem?_map, List.getElem?_range hi]
  rfl

/-- C2 helper: the full union characterisation. -/
theorem partition_union (N W : Nat) (hW : 0 < W) (n : Nat) :
    (∃ i, i < W ∧ pstart N W i ≤ n ∧ n < pend N W i) ↔ n < N := by
  constructor
  · rintro ⟨i, hi, _, h2⟩
    exact partition_mem_lt N W hi h2
  · exact partition_cover N W hW

/-! ### The concurrent phase of `parallel_mine`

Each spawned thread runs
`for nonce in start..end { if found_flag { return }
  if validate(nonce) { lock; if slot empty { write; raise flag }; return } }`.

A worker is therefore in one of three local states: `check pos` (about to test
the loop bound and then read the flag for candidate `pos`), `eval pos` (flag
read as unset, about to call `validate pos`), or `done` (thread returned).
The shared state is the relaxed atomic flag and the mutex-guarded slot; the
whole lock-guarded check-then-set runs as one atomic step because the slot is
only ever touched under the lock. -/

/-- Local state of one worker thread. -/
inductive WStatus where
  | check (pos : Nat)
  | eval (pos : Nat)
  | done
deriving DecidableEq

/-- Shared state of a run: per-worker local states, the `found_flag`
atomic, and the `solution` slot. -/
structure MState where
  workers : List WStatus
  flag : Bool
  slot : Option Nat
deriving DecidableEq

/-- Initial state: worker `i` at the start of its range, flag unset,
slot empty. -/
def mkInit (W : Nat) : MState :=
  ⟨(List.range W).map fun i => .check (wstart W i), false, none⟩

/-- Labels for the six things a worker can do in one atomic step. -/
inductive Act where
  | exhaust (i : Nat)
  | cancel (i : Nat)
  | pass (i : Nat)
  | evalFail (i pos : Nat)
  | win (i pos : Nat)
  | lose (i pos : Nat)
deriving DecidableEq

/-- The worker performing an action. -/
def actorOf : Act → Nat
  | .exhaust i => i
  | .cancel i => i
  | .pass i => i
  | .evalFail i _ => i
  | .win i _ => i
  | .lose i _ => i

/-- Actions that write the result slot. -/
def isWinAct : Act → Bool
  | .win _ _ => true
  | _ => false

/-- Actions in which a worker's `validate` call returned `true` (the worker
"found" a satisfying candidate, whether or not it wins the race). -/
def isFindAct : Act → Bool
  | .win _ _ => true
  | .lose _ _ => true
  | _ => false

/-- `a` is a predicate evaluation by worker `i` on candidate `pos`. -/
def isEvalAct (a : Act) (i pos : Nat) : Prop :=
  a = .evalFail i pos ∨ a = .win i pos ∨ a = .lose i pos

/-- One atomic step of the interleaving semantics of `parallel_mine`'s
worker loops. -/
inductive Step (sha : List Nat → List Nat) (p : Puzzle) (W : Nat) :
    Act → MState → MState → Prop where
  | exhaust (i pos : Nat) (s : MState) :
      s.workers[i]? = some (.check pos) → wend W i ≤ pos →
      Step sha p W (.exhaust i) s ⟨s.workers.set i .done, s.flag, s.slot⟩
  | cancel (i pos : Nat) (s : MState) :
      s.workers[i]? = some (.check pos) → pos < wend W i → s.flag = true →
      Step sha p W (.cancel i) s ⟨s.workers.set i .done, s.flag, s.slot⟩
  | pass (i pos : Nat) (s : MState) :
      s.workers[i]? = some (.check pos) → pos < wend W i → s.flag = false →
      Step sha p W (.pass i) s ⟨s.workers.set i (.eval pos), s.flag, s.slot⟩
  | evalFail (i pos : Nat) (s : MState) :
      s.workers[i]? = some (.eval pos) → validate sha p pos = false →
      Step sha p W (.evalFail i pos) s
        ⟨s.workers.set i (.check (pos + 1)), s.flag, s.slot⟩
  | win (i pos : Nat) (s : MState) :
      s.workers[i]? = some (.eval pos) → validate sha p pos = true →
      s.slot = none →
      Step sha p W (.win i pos) s ⟨s.workers.set i .done, true, some pos⟩
  | lose (i pos x : Nat) (s : MState) :
      s.workers[i]? = some (.eval pos) → validate sha p pos = true →
      s.slot = some x →
      Step sha p W (.lose i pos) s ⟨s.workers.set i .done, s.flag, s.slot⟩

/-- Some worker takes a step. -/
def StepAny (sha : List Nat → List Nat) (p : Puzzle) (W : Nat)
    (s t : MState) : Prop :=
  ∃ a, Step sha p W a s t

/-- States reachable from the initial state. -/
def Reach (sha : List Nat → List Nat) (p : Puzzle) (W : Nat)
    (s : MState) : Prop :=
  Relation.ReflTransGen (StepAny sha p W) (mkInit W) s

/-- A finite labelled run from `s` to `u`. -/
inductive Exec (sha : List Nat → List Nat) (p : Puzzle) (W : Nat) :
    MState → List Act → MState → Prop where
  | refl (s : MState) : Exec sha p W s [] s
  | step {a : Act} {s t u : MState} {l : List Act} :
      Step sha p W a s t → Exec sha p W t l u → Exec sha p W s (a :: l) u

/-- All threads have returned (`join` has completed). -/
def allDone (s : MState) : Prop := ∀ w ∈ s.workers, w = WStatus.done

/-- `sol.unwrap_or(u64::MAX)`: the value `parallel_mine` returns. -/
def runResult (s : MState) : Nat := s.slot.getD U64MAX

/-! ### Reachability invariants -/

theorem lt_length_of_getElem?_some {α : Type} {l : List α} {i : Nat} {x : α}
    (h : l[i]? = some x) : i < l.length := by
  rcases List.getElem?_eq_some.mp h with ⟨hlt, _⟩
  exact hlt

theorem set_getElem?_cases {α : Type} {l : List α} {i j : Nat} {v x : α}
    (h : (l.set i v)[j]? = some x) : (i = j ∧ x = v) ∨ l[j]? = some x := by
  rw [List.getElem?_set] at h
  by_cases hij : i = j
  · rw [if_pos hij] at h
    by_cases hlt : i < l.length
    · rw [if_pos hlt] at h
      exact Or.inl ⟨hij, (Option.some.inj h).symm⟩
    · rw [if_neg hlt] at h
      exact absurd h (by simp)
  · rw [if_neg hij] at h
    exact Or.inr h

theorem wend_le_maxNonce (W : Nat) {i : Nat} (hi : i < W) :
    wend W i ≤ maxNonce W := by
  unfold wend
  split
  · exact Nat.le_refl _
  · calc (i + 1) * rangePerThread W ≤ W * rangePerThread W :=
        Nat.mul_le_mul_right _ hi
      _ ≤ maxNonce W := mul_chunkSize_le (maxNonce W) W

/-- The reachability invariant: the worker list keeps its length, any
published solution satisfies `validate` and lies below `max_nonce`, and a
worker about to evaluate a candidate is inside its own range. -/
def MInv (sha : List Nat → List Nat) (p : Puzzle) (W : Nat) (s : MState) : Prop :=
  s.workers.length = W ∧
  (∀ n, s.slot = some n → validate sha p n = true ∧ n < maxNonce W) ∧
  (∀ i pos, s.workers[i]? = some (.eval pos) → pos < wend W i)

theorem mkInit_workers_getElem (W i : Nat) (hi : i < W) :
    (mkInit W).workers[i]? = some (.check (wstart W i)) := by
  unfold mkInit
  rw [List.getElem?_map, List.getElem?_range hi]
  rfl

theorem minv_mkInit (sha : List Nat → List Nat) (p : Puzzle) (W : Nat) :
    MInv sha p W (mkInit W) := by
  refine ⟨by simp [mkInit], ?_, ?_⟩
  · intro n h
    cases h
  · intro i pos h
    have hiW : i < W := by
      have := lt_length_of_getElem?_some h
      simpa [mkInit] using this
    rw [mkInit_workers_getElem W i hiW] at h
    exact WStatus.noConfusion (Option.some.inj h)

theorem minv_step {sha : List Nat → List Nat} {p : Puzzle} {W : Nat}
    {a : Act} {s t : MState} (hst : Step sha p W a s t)
    (hinv : MInv sha p W s) : MInv sha p W t := by
  obtain ⟨hlen, hslot, heval⟩ := hinv
  cases hst with
  | exhaust i pos s h1 h2 =>
      refine ⟨by simpa using hlen, hslot, ?_⟩
      intro j q hj
      rcases set_getElem?_cases hj with ⟨_, hq⟩ | hj'
      · exact WStatus.noConfusion hq
      · exact heval j q hj'
  | cancel i pos s h1 h2 h3 =>
      refine ⟨by simpa using hlen, hslot, ?_⟩
      intro j q hj
      rcases set_getElem?_cases hj with ⟨_, hq⟩ | hj'
      · exact WStatus.noConfusion hq
      · exact heval j q hj'
  | pass i pos s h1 h2 h3 =>
      refine ⟨by simpa using hlen, hslot, ?_⟩
      intro j q hj
      rcases set_getElem?_cases hj with ⟨heq, hq⟩ | hj'
      · cases hq
        subst heq
        exact h2
      · exact heval j q hj'
  | evalFail i pos s h1 h2 =>
      refine ⟨by simpa using hlen, hslot, ?_⟩
      intro j q hj
      rcases set_getElem?_cases hj with ⟨_, hq⟩ | hj'
      · exact WStatus.noConfusion hq
      · exact heval j q hj'
  | win i pos s h1 h2 h3 =>
      refine ⟨by simpa using hlen, ?_, ?_⟩
      · intro n hn
        cases hn
        refine ⟨h2, ?_⟩
        have hiW : i < s.workers.length := lt_length_of_getElem?_some h1
        exact Nat.lt_of_lt_of_le (heval i pos h1)
          (wend_le_maxNonce W (hlen ▸ hiW))
      · intro j q hj
        rcases set_getElem?_cases hj with ⟨_, hq⟩ | hj'
        · exact WStatus.noConfusion hq
        · exact heval j q hj'
  | lose i pos x s h1 h2 h3 =>
      refine ⟨by simpa using hlen, hslot, ?_⟩
      intro j q hj
      rcases set_getElem?_cases hj with ⟨_, hq⟩ | hj'
      · exact WStatus.noConfusion hq
      · exact heval j q hj'

theorem reach_minv {sha : List Nat → List Nat} {p : Puzzle} {W : Nat}
    {s : MState} (h : Reach sha p W s) : MInv sha p W s := by
  induction h with
  | refl => exact minv_mkInit sha p W
  | tail hsteps hstep ih =>
      rcases hstep with ⟨a, hst⟩
      exact minv_step hst ih

/-- C1 — Soundness of search: at any joined final state of a run of
`parallel_mine`, if the returned value is not the `u64::MAX` NOT_FOUND
sentinel then `validate` holds for it. -/
theorem c1_soundness (sha : List Nat → List Nat) (p : Puzzle) (W : Nat)
    (s : MState) (hs : Reach sha p W s) (hdone : allDone s)
    (hne : runResult s ≠ U64MAX) : validate sha p (runResult s) = true := by
  obtain ⟨_, hslot, _⟩ := reach_minv hs
  cases hsl : s.slot with
  | none => exact absurd (by simp [runResult, hsl]) hne
  | some n =>
      have hr : runResult s = n := by simp [runResult, hsl]
      rw [hr]
      exact (hslot n hsl).1

theorem slot_none_step {sha : List Nat → List Nat} {p : Puzzle} {W : Nat}
    {a : Act} {s t : MState} (hst : Step sha p W a s t)
    (hinv : MInv sha p W s)
    (hnone : ∀ n, n < maxNonce W → validate sha p n = false)
    (hslot : s.slot = none) : t.slot = none := by
  cases hst with
  | exhaust i pos s h1 h2 => exact hslot
  | cancel i pos s h1 h2 h3 => exact hslot
  | pass i pos s h1 h2 h3 => exact hslot
  | evalFail i pos s h1 h2 => exact hslot
  | win i pos s h1 h2 h3 =>
      obtain ⟨hlen, _, heval⟩ := hinv
      have hiW : i < s.workers.length := lt_length_of_getElem?_some h1
      have hp : pos < maxNonce W :=
        Nat.lt_of_lt_of_le (heval i pos h1) (wend_le_maxNonce W (hlen ▸ hiW))
      rw [hnone pos hp] at h2
      cases h2
  | lose i pos x s h1 h2 h3 => exact hslot

/-- C5 — Negative completeness: if no candidate below `max_nonce` satisfies
the predicate, the result slot stays empty throughout the run, and at any
joined final state `parallel_mine` returns the `u64::MAX` sentinel. -/
theorem c5_negative_completeness (sha : List Nat → List Nat) (p : Puzzle)
    (W : Nat) (hW : 1 ≤ W)
    (hnone : ∀ n, n < maxNonce W → validate sha p n = false)
    (s : MState) (hs : Reach sha p W s) :
    s.slot = none ∧ (allDone s → runResult s = U64MAX) := by
  have hmain : s.slot = none := by
    induction hs with
    | refl => rfl
    | tail hsteps hstep ih =>
        rcases hstep with ⟨a, hst⟩
        exact slot_none_step hst (reach_minv hsteps) hnone ih
  exact ⟨hmain, fun _ => by simp [runResult, hmain]⟩

/-- Every predicate evaluation happens from the `eval` phase of the acting
worker (used for C6 and C9). -/
theorem step_evalAct_state {sha : List Nat → List Nat} {p : Puzzle} {W : Nat}
    {a : Act} {s t : MState} {i pos : Nat} (hst : Step sha p W a s t)
    (ha : isEvalAct a i pos) : s.workers[i]? = some (.eval pos) := by
  rcases ha with rfl | rfl | rfl
  · cases hst with
    | evalFail i pos s h1 h2 => exact h1
  · cases hst with
    | win i pos s h1 h2 h3 => exact h1
  · cases hst with
    | lose i pos x s h1 h2 h3 => exact h1

/-- C9 — Sentinel unambiguity: in any reachable state every candidate a
worker is about to test lies strictly below `u64::MAX / W` and strictly below
`u64::MAX`; any candidate actually evaluated in a step obeys the same bounds;
and the returned value equals `u64::MAX` exactly when the slot is empty, so
the sentinel never denotes a genuinely found candidate. -/
theorem c9_sentinel (sha : List Nat → List Nat) (p : Puzzle) (W : Nat)
    (hW : 1 ≤ W) (s : MState) (hs : Reach sha p W s) :
    (∀ (i pos : Nat), s.workers[i]? = some (WStatus.eval pos) →
       pos < U64MAX / W ∧ pos < U64MAX) ∧
    (∀ (a : Act) (t : MState) (i pos : Nat), Step sha p W a s t →
       isEvalAct a i pos → pos < U64MAX / W ∧ pos < U64MAX) ∧
    (runResult s = U64MAX ↔ s.slot = none) := by
  obtain ⟨hlen, hslot, heval⟩ := reach_minv hs
  have hbound : ∀ (i pos : Nat), s.workers[i]? = some (WStatus.eval pos) →
      pos < U64MAX / W ∧ pos < U64MAX := by
    intro i pos h
    have hiW : i < s.workers.length := lt_length_of_getElem?_some h
    have h1 : pos < maxNonce W :=
      Nat.lt_of_lt_of_le (heval i pos h) (wend_le_maxNonce W (hlen ▸ hiW))
    have h2 : maxNonce W ≤ U64MAX := Nat.div_le_self _ _
    exact ⟨h1, Nat.lt_of_lt_of_le h1 h2⟩
  refine ⟨hbound, ?_, ?_⟩
  · intro a t i pos hst ha
    exact hbound i pos (step_evalAct_state hst ha)
  · constructor
    · intro hres
      cases hsl : s.slot with
      | none => rfl
      | some n =>
          have hn := (hslot n hsl).2
          have hr : runResult s = n := by simp [runResult, hsl]
          rw [hr] at hres
          have hle : maxNonce W ≤ U64MAX := Nat.div_le_self _ _
          omega
    · intro hsl
      simp [runResult, hsl]

/-! ### Run-level lemmas for the result slot and cancellation -/

theorem step_slot_preserved_some {sha : List Nat → List Nat} {p : Puzzle}
    {W : Nat} {a : Act} {s t : MState} {x : Nat} (hst : Step sha p W a s t)
    (h : s.slot = some x) : t.slot = some x := by
  cases hst with
  | exhaust i pos s h1 h2 => exact h
  | cancel i pos s h1 h2 h3 => exact h
  | pass i pos s h1 h2 h3 => exact h
  | evalFail i pos s h1 h2 => exact h
  | win i pos s h1 h2 h3 => rw [h] at h3; cases h3
  | lose i pos y s h1 h2 h3 => exact h

theorem exec_no_win_of_some {sha : List Nat → List Nat} {p : Puzzle} {W : Nat} :
    ∀ {s u : MState} {l : List Act} {x : Nat}, Exec sha p W s l u →
      s.slot = some x → l.countP isWinAct = 0 := by
  intro s u l x hex
  induction hex with
  | refl s => intro _; rfl
  | step hst hrest ih =>
      intro h
      rw [List.countP_cons, ih (step_slot_preserved_some hst h)]
      cases hst with
      | exhaust i pos s h1 h2 => rfl
      | cancel i pos s h1 h2 h3 => rfl
      | pass i pos s h1 h2 h3 => rfl
      | evalFail i pos s h1 h2 => rfl
      | win i pos s h1 h2 h3 => rw [h] at h3; cases h3
      | lose i pos y s h1 h2 h3 => rfl

theorem exec_countP_win_le_one {sha : List Nat → List Nat} {p : Puzzle}
    {W : Nat} : ∀ {s u : MState} {l : List Act}, Exec sha p W s l u →
      s.slot = none → l.countP isWinAct ≤ 1 := by
  intro s u l hex
  induction hex with
  | refl s => intro _; simp
  | step hst hrest ih =>
      intro h
      rw [List.countP_cons]
      cases hst with
      | exhaust i pos s h1 h2 => simpa [isWinAct] using ih h
      | cancel i pos s h1 h2 h3 => simpa [isWinAct] using ih h
      | pass i pos s h1 h2 h3 => simpa [isWinAct] using ih h
      | evalFail i pos s h1 h2 => simpa [isWinAct] using ih h
      | win i pos s h1 h2 h3 =>
          have h0 := exec_no_win_of_some hrest (x := pos) rfl
          rw [h0]
          simp [isWinAct]
      | lose i pos y s h1 h2 h3 => rw [h] at h3; cases h3

theorem exec_find_win {sha : List Nat → List Nat} {p : Puzzle} {W : Nat} :
    ∀ {s u : MState} {l : List Act}, Exec sha p W s l u → s.slot = none →
      (∃ a ∈ l, isFindAct a = true) → 1 ≤ l.countP isWinAct := by
  intro s u l hex
  induction hex with
  | refl s =>
      intro _ hfind
      rcases hfind with ⟨a, ha, _⟩
      cases ha
  | step hst hrest ih =>
      intro h hfind
      rw [List.countP_cons]
      cases hst with
      | win i pos s h1 h2 h3 => simp [isWinAct]
      | lose i pos y s h1 h2 h3 => rw [h] at h3; cases h3
      | exhaust i pos s h1 h2 =>
          rcases hfind with ⟨a', ha', hf⟩
          rcases List.mem_cons.mp ha' with rfl | hmem
          · simp [isFindAct] at hf
          · simpa [isWinAct] using ih h ⟨a', hmem, hf⟩
      | cancel i pos s h1 h2 h3 =>
          rcases hfind with ⟨a', ha', hf⟩
          rcases List.mem_cons.mp ha' with rfl | hmem
          · simp [isFindAct] at hf
          · simpa [isWinAct] using ih h ⟨a', hmem, hf⟩
      | pass i pos s h1 h2 h3 =>
          rcases hfind with ⟨a', ha', hf⟩
          rcases List.mem_cons.mp ha' with rfl | hmem
          · simp [isFindAct] at hf
          · simpa [isWinAct] using ih h ⟨a', hmem, hf⟩
      | evalFail i pos s h1 h2 =>
          rcases hfind with ⟨a', ha', hf⟩
          rcases List.mem_cons.mp ha' with rfl | hmem
          · simp [isFindAct] at hf
          · simpa [isWinAct] using ih h ⟨a', hmem, hf⟩

theorem step_done_preserved {sha : List Nat → List Nat} {p : Puzzle} {W : Nat}
    {a : Act} {s t : MState} {i : Nat} (hst : Step sha p W a s t)
    (h : s.workers[i]? = some WStatus.done) :
    t.workers[i]? = some WStatus.done := by
  cases hst with
  | exhaust j pos s h1 h2 =>
      rcases eq_or_ne j i with rfl | hne
      · rw [List.getElem?_set_self (lt_length_of_getElem?_some h1)]
      · rw [List.getElem?_set_ne hne]; exact h
  | cancel j pos s h1 h2 h3 =>
      rcases eq_or_ne j i with rfl | hne
      · rw [List.getElem?_set_self (lt_length_of_getElem?_some h1)]
      · rw [List.getElem?_set_ne hne]; exact h
  | pass j pos s h1 h2 h3 =>
      rcases eq_or_ne j i with rfl | hne
      · rw [h1] at h; exact WStatus.noConfusion (Option.some.inj h)
      · rw [List.getElem?_set_ne hne]; exact h
  | evalFail j pos s h1 h2 =>
      rcases eq_or_ne j i with rfl | hne
      · rw [h1] at h; exact WStatus.noConfusion (Option.some.inj h)
      · rw [List.getElem?_set_ne hne]; exact h
  | win j pos s h1 h2 h3 =>
      rcases eq_or_ne j i with rfl | hne
      · rw [List.getElem?_set_self (lt_length_of_getElem?_some h1)]
      · rw [List.getElem?_set_ne hne]; exact h
  | lose j pos y s h1 h2 h3 =>
      rcases eq_or_ne j i with rfl | hne
      · rw [List.getElem?_set_self (lt_length_of_getElem?_some h1)]
      · rw [List.getElem?_set_ne hne]; exact h

theorem step_actor_not_done {sha : List Nat → List Nat} {p : Puzzle} {W : Nat}
    {a : Act} {s t : MState} (hst : Step sha p W a s t) :
    s.workers[actorOf a]? ≠ some WStatus.done := by
  cases hst with
  | exhaust i pos s h1 h2 =>
      intro h
      simp only [actorOf] at h
      rw [h1] at h
      exact WStatus.noConfusion (Option.some.inj h)
  | cancel i pos s h1 h2 h3 =>
      intro h
      simp only [actorOf] at h
      rw [h1] at h
      exact WStatus.noConfusion (Option.some.inj h)
  | pass i pos s h1 h2 h3 =>
      intro h
      simp only [actorOf] at h
      rw [h1] at h
      exact WStatus.noConfusion (Option.some.inj h)
  | evalFail i pos s h1 h2 =>
      intro h
      simp only [actorOf] at h
      rw [h1] at h
      exact WStatus.noConfusion (Option.some.inj h)
  | win i pos s h1 h2 h3 =>
      intro h
      simp only [actorOf] at h
      rw [h1] at h
      exact WStatus.noConfusion (Option.some.inj h)
  | lose i pos y s h1 h2 h3 =>
      intro h
      simp only [actorOf] at h
      rw [h1] at h
      exact WStatus.noConfusion (Option.some.inj h)

theorem exec_done_no_actor {sha : List Nat → List Nat} {p : Puzzle} {W : Nat}
    {i : Nat} : ∀ {s u : MState} {l : List Act}, Exec sha p W s l u →
      s.workers[i]? = some WStatus.done → ∀ a ∈ l, actorOf a ≠ i := by
  intro s u l hex
  induction hex with
  | refl s =>
      intro _ a ha
      cases ha
  | step hst hrest ih =>
      intro h a' ha'
      rcases List.mem_cons.mp ha' with rfl | hmem
      · intro heq
        rw [← heq] at h
        exact step_actor_not_done hst h
      · exact ih (step_done_preserved hst h) a' hmem

theorem exec_append_split {sha : List Nat → List Nat} {p : Puzzle} {W : Nat} :
    ∀ {s u : MState} (l1 l2 : List Act), Exec sha p W s (l1 ++ l2) u →
      ∃ m, Exec sha p W s l1 m ∧ Exec sha p W m l2 u := by
  intro s u l1
  induction l1 generalizing s with
  | nil =>
      intro l2 hex
      exact ⟨s, Exec.refl s, by simpa using hex⟩
  | cons a l1 ih =>
      intro l2 hex
      cases hex with
      | step hst hrest =>
          rcases ih l2 hrest with ⟨m, hl1, hl2⟩
          exact ⟨m, Exec.step hst hl1, hl2⟩

/-! ### Claim theorems: partition, bound, setup failure, predicate -/

/-- C2 — Partition correctness: for `N ≥ 1` and `W ≥ 1` the produced ranges
number exactly `W`, worker `i` holds `[i*chunk, (i+1)*chunk)` with the last
worker absorbing the remainder, adjacent ranges are contiguous, the union is
exactly `[0, N)`, the ranges are pairwise disjoint, and every range is
non-empty whenever `N ≥ W`. -/
theorem c2_partition (N W : Nat) (hN : 1 ≤ N) (hW : 1 ≤ W) :
    (partitionRanges N W).length = W ∧
    (∀ i, i < W → (partitionRanges N W)[i]? = some (pstart N W i, pend N W i)) ∧
    (∀ i, i + 1 < W → pend N W i = pstart N W (i + 1)) ∧
    (∀ n, (∃ i, i < W ∧ pstart N W i ≤ n ∧ n < pend N W i) ↔ n < N) ∧
    (∀ i j n, i < W → j < W → i ≠ j →
       pstart N W i ≤ n → n < pend N W i →
       pstart N W j ≤ n → n < pend N W j → False) ∧
    (W ≤ N → ∀ i, i < W → pstart N W i < pend N W i) := by
  refine ⟨by simp [partitionRanges], ?_, ?_, partition_union N W hW, ?_, ?_⟩
  · intro i hi
    exact partitionRanges_get N W i hi
  · intro i hi
    unfold pend pstart
    rw [if_neg (by omega)]
  · intro i j n hi hj hne h1 h2 h3 h4
    rcases Nat.lt_or_ge i j with hij | hij
    · exact partition_disjoint_lt N W hij hj h2 h3
    · have hji : j < i := by omega
      exact partition_disjoint_lt N W hji hi h4 h1
  · intro hNW i hi
    exact partition_nonempty N W hW hNW hi

theorem wstart_eq_pstart (W i : Nat) : wstart W i = pstart (maxNonce W) W i := rfl

theorem wend_eq_pend (W i : Nat) : wend W i = pend (maxNonce W) W i := rfl

/-- C7 — Derived search bound: the bound `parallel_mine` uses is
`u64::MAX / W`, the union of all worker ranges is exactly `[0, u64::MAX / W)`,
and the bound shrinks (weakly) as the worker count grows. -/
theorem c7_search_bound (W : Nat) (hW : 1 ≤ W) :
    maxNonce W = U64MAX / W ∧
    (∀ n, (∃ i, i < W ∧ wstart W i ≤ n ∧ n < wend W i) ↔ n < U64MAX / W) ∧
    (∀ V, 1 ≤ V → V ≤ W → maxNonce W ≤ maxNonce V) := by
  refine ⟨rfl, ?_, ?_⟩
  · intro n
    have h := partition_union (maxNonce W) W hW n
    simpa only [wstart_eq_pstart, wend_eq_pend] using h
  · intro V hV hVW
    exact Nat.div_le_div_left hVW hV

/-- C4 counterexample — with `W = 0`, `parallel_mine`'s setup does not
reject the configuration: it performs the division `u64::MAX / 0`, whose
outcome is the divide-by-zero panic, not an invalid-configuration
rejection. -/
theorem c4_counterexample :
    mineSetup 0 = Except.error MineFailure.divByZero ∧
    mineSetup 0 ≠ Except.error MineFailure.invalidConfig := by
  refine ⟨rfl, ?_⟩
  intro h
  rw [show mineSetup 0 = Except.error MineFailure.divByZero from rfl] at h
  injection h with h'
  cases h'

/-- C4 amended — when `W = 0` the run fails before any worker range is
computed and before any worker is spawned, but the failure is the
divide-by-zero panic in `max_nonce = u64::MAX / W`, not an explicit
configuration check. -/
theorem c4_amended :
    mineWorkerRanges 0 = Except.error MineFailure.divByZero := rfl

/-- For every positive worker count the setup divisions succeed and produce
exactly the `max_nonce` and `range_per_thread` used by the pure model. -/
theorem mineSetup_pos (W : Nat) (hW : 1 ≤ W) :
    mineSetup W = Except.ok (maxNonce W, rangePerThread W) := by
  have h0 : W ≠ 0 := by omega
  simp [mineSetup, checkedDiv, h0, maxNonce, rangePerThread]

/-- C8 — Difficulty threshold truncation: `validate` depends on the
difficulty only through its value modulo `2^16`, and when the difficulty is a
(nonzero) multiple of `2^16` the comparison is against zero, so `validate` is
false for every nonce. -/
theorem c8_difficulty_truncation (sha : List Nat → List Nat) :
    (∀ p p' : Puzzle, p.data = p'.data →
       p.difficulty % 2 ^ 16 = p'.difficulty % 2 ^ 16 →
       ∀ n, validate sha p n = validate sha p' n) ∧
    (∀ (q : Puzzle) (k : Nat), 1 ≤ k → q.difficulty = 2 ^ 16 * k →
       ∀ n, validate sha q n = false) := by
  constructor
  · intro p p' hdata hmod n
    unfold validate
    rw [hdata, hmod]
  · intro q k hk hq n
    unfold validate
    rw [hq]
    simp

/-- C3 — Result-slot single-write invariant: a step changes the slot only
from empty to occupied, inside the same atomic (lock-guarded) action that
checked emptiness and found a satisfying candidate; any run performs at most
one such write; and a run in which at least one worker finds a satisfying
candidate performs exactly one write. -/
theorem c3_single_write (sha : List Nat → List Nat) (p : Puzzle) (W : Nat) :
    (∀ (a : Act) (s t : MState), Step sha p W a s t → t.slot ≠ s.slot →
       s.slot = none ∧ t.flag = true ∧
       ∃ i pos, a = .win i pos ∧ t.slot = some pos ∧
         validate sha p pos = true) ∧
    (∀ (l : List Act) (u : MState), Exec sha p W (mkInit W) l u →
       l.countP isWinAct ≤ 1) ∧
    (∀ (l : List Act) (u : MState), Exec sha p W (mkInit W) l u →
       (∃ a ∈ l, isFindAct a = true) → l.countP isWinAct = 1) := by
  refine ⟨?_, ?_, ?_⟩
  · intro a s t hst hne
    cases hst with
    | exhaust i pos s h1 h2 => exact absurd rfl hne
    | cancel i pos s h1 h2 h3 => exact absurd rfl hne
    | pass i pos s h1 h2 h3 => exact absurd rfl hne
    | evalFail i pos s h1 h2 => exact absurd rfl hne
    | win i pos s h1 h2 h3 => exact ⟨h3, rfl, i, pos, rfl, rfl, h2⟩
    | lose i pos y s h1 h2 h3 => exact absurd rfl hne
  · intro l u hex
    exact exec_countP_win_le_one hex rfl
  · intro l u hex hfind
    have h1 := exec_countP_win_le_one hex rfl
    have h2 := exec_find_win hex rfl hfind
    omega

/-- C6 — Worker cancellation protocol: a predicate evaluation only happens
from the acting worker's post-check `eval` phase; that phase is entered only
by a `pass` step that read the cancellation flag as unset; a `cancel` step
happens exactly when the flag was read as set and retires the worker; after
a failed evaluation the worker moves to the next candidate in ascending
order; and once a worker is cancelled it takes no further action of any kind
(in particular it never evaluates another candidate) for the rest of the
run. -/
theorem c6_cancellation (sha : List Nat → List Nat) (p : Puzzle) (W : Nat) :
    (∀ (a : Act) (s t : MState) (i pos : Nat), Step sha p W a s t →
       isEvalAct a i pos → s.workers[i]? = some (WStatus.eval pos)) ∧
    (∀ (a : Act) (s t : MState) (i pos : Nat), Step sha p W a s t →
       t.workers[i]? = some (WStatus.eval pos) →
       s.workers[i]? ≠ some (WStatus.eval pos) →
       a = .pass i ∧ s.flag = false ∧
         s.workers[i]? = some (WStatus.check pos)) ∧
    (∀ (s t : MState) (i : Nat), Step sha p W (.cancel i) s t →
       s.flag = true ∧ t.workers[i]? = some WStatus.done) ∧
    (∀ (s t : MState) (i pos : Nat), Step sha p W (.evalFail i pos) s t →
       t.workers[i]? = some (WStatus.check (pos + 1))) ∧
    (∀ (s u : MState) (i : Nat) (l1 l2 : List Act),
       Exec sha p W s (l1 ++ .cancel i :: l2) u → ∀ a ∈ l2, actorOf a ≠ i) := by
  refine ⟨?_, ?_, ?_, ?_, ?_⟩
  · intro a s t i pos hst ha
    exact step_evalAct_state hst ha
  · intro a s t i pos hst ht hs
    cases hst with
    | exhaust j q s h1 h2 =>
        rcases set_getElem?_cases ht with ⟨_, hq⟩ | hj'
        · exact absurd hq (by simp)
        · exact absurd hj' hs
    | cancel j q s h1 h2 h3 =>
        rcases set_getElem?_cases ht with ⟨_, hq⟩ | hj'
        · exact absurd hq (by simp)
        · exact absurd hj' hs
    | pass j q s h1 h2 h3 =>
        rcases set_getElem?_cases ht with ⟨heq, hq⟩ | hj'
        · cases hq
          subst heq
          exact ⟨rfl, h3, h1⟩
        · exact absurd hj' hs
    | evalFail j q s h1 h2 =>
        rcases set_getElem?_cases ht with ⟨_, hq⟩ | hj'
        · exact absurd hq (by simp)
        · exact absurd hj' hs
    | win j q s h1 h2 h3 =>
        rcases set_getElem?_cases ht with ⟨_, hq⟩ | hj'
        · exact absurd hq (by simp)
        · exact absurd hj' hs
    | lose j q y s h1 h2 h3 =>
        rcases set_getElem?_cases ht with ⟨_, hq⟩ | hj'
        · exact absurd hq (by simp)
        · exact absurd hj' hs
  · intro s t i hst
    cases hst with
    | cancel i pos s h1 h2 h3 =>
        exact ⟨h3, by rw [List.getElem?_set_self (lt_length_of_getElem?_some h1)]⟩
  · intro s t i pos hst
    cases hst with
    | evalFail i pos s h1 h2 =>
        exact by rw [List.getElem?_set_self (lt_length_of_getElem?_some h1)]
  · intro s u i l1 l2 hex
    rcases exec_append_split l1 (.cancel i :: l2) hex with ⟨m, _, hm⟩
    cases hm with
    | step hst hrest =>
        cases hst with
        | cancel i pos m h1 h2 h3 =>
            exact exec_done_no_actor hrest
              (by rw [List.getElem?_set_self (lt_length_of_getElem?_some h1)])

/-! ### Independence from the stored nonce field -/

theorem validate_congr {sha : List Nat → List Nat} {p p' : Puzzle}
    (hd : p.difficulty = p'.difficulty) (hdata : p.data = p'.data) :
    ∀ n, validate sha p n = validate sha p' n := by
  intro n
  unfold validate
  rw [hd, hdata]

theorem step_congr {sha : List Nat → List Nat} {p p' : Puzzle} {W : Nat}
    (hval : ∀ n, validate sha p n = validate sha p' n)
    {a : Act} {s t : MState} (hst : Step sha p W a s t) :
    Step sha p' W a s t := by
  cases hst with
  | exhaust i pos s h1 h2 => exact Step.exhaust i pos s h1 h2
  | cancel i pos s h1 h2 h3 => exact Step.cancel i pos s h1 h2 h3
  | pass i pos s h1 h2 h3 => exact Step.pass i pos s h1 h2 h3
  | evalFail i pos s h1 h2 =>
      exact Step.evalFail i pos s h1 (by rw [← hval pos]; exact h2)
  | win i pos s h1 h2 h3 =>
      exact Step.win i pos s h1 (by rw [← hval pos]; exact h2) h3
  | lose i pos y s h1 h2 h3 =>
      exact Step.lose i pos y s h1 (by rw [← hval pos]; exact h2) h3

/-- C10 — Independence from the puzzle's nonce field: two puzzles that agree
on difficulty and data (and so may differ only in the stored `nonce` field)
make `validate` agree on every candidate, and induce exactly the same steps,
the same reachable states, and the same runs of `parallel_mine`. -/
theorem c10_nonce_independence (sha : List Nat → List Nat) (p p' : Puzzle)
    (hd : p.difficulty = p'.difficulty) (hdata : p.data = p'.data) :
    (∀ n, validate sha p n = validate sha p' n) ∧
    (∀ (W : Nat) (a : Act) (s t : MState),
       Step sha p W a s t ↔ Step sha p' W a s t) ∧
    (∀ (W : Nat) (s : MState), Reach sha p W s ↔ Reach sha p' W s) ∧
    (∀ (W : Nat) (s u : MState) (l : List Act),
       Exec sha p W s l u ↔ Exec sha p' W s l u) := by
  have hval : ∀ n, validate sha p n = validate sha p' n := validate_congr hd hdata
  have hval' : ∀ n, validate sha p' n = validate sha p n := fun n => (hval n).symm
  refine ⟨hval, ?_, ?_, ?_⟩
  · intro W a s t
    exact ⟨step_congr hval, step_congr hval'⟩
  · intro W s
    constructor
    · intro h
      exact Relation.ReflTransGen.mono
        (fun {x y} hxy => hxy.elim fun a hst => ⟨a, step_congr hval hst⟩) h
    · intro h
      exact Relation.ReflTransGen.mono
        (fun {x y} hxy => hxy.elim fun a hst => ⟨a, step_congr hval' hst⟩) h
  · intro W s u l
    constructor
    · intro h
      induction h with
      | refl s => exact Exec.refl s
      | step hst hrest ih => exact Exec.step (step_congr hval hst) ih
    · intro h
      induction h with
      | refl s => exact Exec.refl s
      | step hst hrest ih => exact Exec.step (step_congr hval' hst) ih

/-! ### Concrete witnesses -/

/-- Stub digest (all zero bytes), standing in for the external SHA-256. -/
def shaZero : List Nat → List Nat := fun _ => List.replicate 32 0

/-- Concrete puzzle with difficulty 1: under `shaZero` every nonce
validates. -/
def pzOne : Puzzle := ⟨1, [83, 111], 0⟩

/-- Concrete puzzle with difficulty 0: no nonce ever validates. -/
def pzZero : Puzzle := ⟨0, [], 0⟩

theorem step_pass0 :
    Step shaZero pzOne 1 (.pass 0) (mkInit 1)
      ⟨[WStatus.eval 0], false, none⟩ :=
  Step.pass 0 0 (mkInit 1) (by decide) (by decide) rfl

theorem step_win0 :
    Step shaZero pzOne 1 (.win 0 0) ⟨[WStatus.eval 0], false, none⟩
      ⟨[WStatus.done], true, some 0⟩ :=
  Step.win 0 0 ⟨[WStatus.eval 0], false, none⟩ (by decide) (by decide) rfl

theorem reach_s1 : Reach shaZero pzOne 1 ⟨[WStatus.eval 0], false, none⟩ :=
  Relation.ReflTransGen.tail Relation.ReflTransGen.refl ⟨.pass 0, step_pass0⟩

theorem reach_s2 : Reach shaZero pzOne 1 ⟨[WStatus.done], true, some 0⟩ :=
  Relation.ReflTransGen.tail reach_s1 ⟨.win 0 0, step_win0⟩

theorem exec_run2 :
    Exec shaZero pzOne 1 (mkInit 1) [.pass 0, .win 0 0]
      ⟨[WStatus.done], true, some 0⟩ :=
  Exec.step step_pass0 (Exec.step step_win0 (Exec.refl _))

/-- Witness for C1 at a concrete completed run. -/
theorem c1_soundness_witness :
    validate shaZero pzOne (runResult ⟨[WStatus.done], true, some 0⟩) = true :=
  c1_soundness shaZero pzOne 1 ⟨[WStatus.done], true, some 0⟩ reach_s2
    (by intro w hw; simpa using hw) (by decide)

/-- Witness for C2 at `N = 10`, `W = 4`. -/
theorem c2_partition_witness :
    (partitionRanges 10 4).length = 4 ∧
    pend 10 4 1 = pstart 10 4 2 ∧
    pstart 10 4 2 < pend 10 4 2 := by
  have h := c2_partition 10 4 (by norm_num) (by norm_num)
  exact ⟨h.1, h.2.2.1 1 (by norm_num), h.2.2.2.2.2 (by norm_num) 2 (by norm_num)⟩

/-- Witness for C3 at a concrete run with one winning write. -/
theorem c3_single_write_witness :
    ([Act.pass 0, Act.win 0 0].countP isWinAct) = 1 :=
  (c3_single_write shaZero pzOne 1).2.2 [Act.pass 0, Act.win 0 0]
    ⟨[WStatus.done], true, some 0⟩ exec_run2 ⟨Act.win 0 0, by decide, rfl⟩

/-- Witness for C5 with an always-false predicate. -/
theorem c5_negative_completeness_witness : (mkInit 1).slot = none :=
  (c5_negative_completeness shaZero pzZero 1 (by norm_num)
    (fun n _ => by simp [validate, pzZero]) (mkInit 1)
    Relation.ReflTransGen.refl).1

/-- Witness for C6 at a concrete cancellation step. -/
theorem c6_cancellation_witness :
    (⟨[WStatus.check 0], true, some 5⟩ : MState).flag = true ∧
    (⟨[WStatus.done], true, some 5⟩ : MState).workers[0]? = some WStatus.done :=
  (c6_cancellation shaZero pzOne 1).2.2.1 ⟨[WStatus.check 0], true, some 5⟩
    ⟨[WStatus.done], true, some 5⟩ 0
    (Step.cancel 0 0 ⟨[WStatus.check 0], true, some 5⟩ (by decide) (by decide) rfl)

/-- Witness for C7 at `W = 3`. -/
theorem c7_search_bound_witness :
    maxNonce 3 = U64MAX / 3 ∧ maxNonce 3 ≤ maxNonce 2 := by
  have h := c7_search_bound 3 (by norm_num)
  exact ⟨h.1, h.2.2 2 (by norm_num) (by norm_num)⟩

/-- Witness for C8 at concrete puzzles. -/
theorem c8_difficulty_truncation_witness :
    validate shaZero ⟨1, [], 0⟩ 0 = validate shaZero ⟨65537, [], 9⟩ 0 ∧
    validate shaZero ⟨65536, [], 0⟩ 5 = false := by
  have h := c8_difficulty_truncation shaZero
  exact ⟨h.1 ⟨1, [], 0⟩ ⟨65537, [], 9⟩ rfl (by norm_num) 0,
    h.2 ⟨65536, [], 0⟩ 1 (by norm_num) (by norm_num) 5⟩

/-- Witness for C9 at a concrete reachable state. -/
theorem c9_sentinel_witness :
    runResult ⟨[WStatus.eval 0], false, none⟩ = U64MAX ↔
    (⟨[WStatus.eval 0], false, none⟩ : MState).slot = none :=
  (c9_sentinel shaZero pzOne 1 (by norm_num) ⟨[WStatus.eval 0], false, none⟩
    reach_s1).2.2

/-- Witness for C10 at two puzzles differing only in the nonce field. -/
theorem c10_nonce_independence_witness :
    validate shaZero ⟨1, [7], 0⟩ 3 = validate shaZero ⟨1, [7], 99⟩ 3 :=
  (c10_nonce_independence shaZero ⟨1, [7], 0⟩ ⟨1, [7], 99⟩ rfl rfl).1 3
